import Mathlib

/-!
Verification of the subtour-elimination core of `src/tsp-app.py`.

The file shallowly embeds the pure computations of the source: the
`subtour` cycle detector (lines 50-68), the lazy-constraint callback's
cut construction (lines 15-24), the tour extraction (lines 101-107), the
pairwise-distance dictionary (lines 76-77), the variable creation and
mirroring (lines 87-94), and the degree-2 constraints (line 94).
Python lists become Lean `List`s; the two `while` loops of `subtour`
become fueled recursions (`walkAux`, `subtourAux`) whose fuel is proved
sufficient; dictionary lookups become `Option`-valued functions.
-/

namespace TSPApp

/-- `edges.select(current, '*')` on a gurobi `tuplelist` (line 62 of the
source): the second components of all edge tuples whose first component
is `c`, in input order. -/
def selectFrom (edges : List (Nat × Nat)) (c : Nat) : List Nat :=
  (edges.filter (fun e => e.1 == c)).map (fun e => e.2)

/-- The inner `while neighbors:` loop of `subtour` (lines 56-62):
`current = neighbors[0]`, append it to the cycle under construction,
remove it from `unvisited` (Python `list.remove` drops the first
occurrence, as does `List.erase`), and recompute the frontier as the
`unvisited` successors of `current`.  The loop is run on explicit fuel;
`none` reports fuel exhaustion (shown unreachable in `walk_spec`). -/
def walkAux (edges : List (Nat × Nat)) :
    Nat → List Nat → List Nat → List Nat → Option (List Nat × List Nat)
  | _, [], unvisited, acc => some (acc, unvisited)
  | 0, _ :: _, _, _ => none
  | fuel + 1, current :: _, unvisited, acc =>
    walkAux edges fuel
      ((selectFrom edges current).filter (fun j => decide (j ∈ unvisited.erase current)))
      (unvisited.erase current) (acc ++ [current])

/-- The running-minimum update of lines 64-65 (`if len(cycle) >
len(thiscycle): cycle = thiscycle`), folded over the cycles found. -/
def bestOf (init : List Nat) (l : List (List Nat)) : List Nat :=
  l.foldl (fun b t => if t.length < b.length then t else b) init

/-- The outer `while unvisited:` loop of `subtour` (lines 55-66): start a
fresh walk from the head of `unvisited` (the first walk frontier is the
`unvisited` list itself, line 57), record the finished cycle, and keep
the shortest cycle seen so far.  Fueled; `none` reports fuel
exhaustion (shown unreachable in `subtourAux_spec`). -/
def subtourAux (edges : List (Nat × Nat)) :
    Nat → List Nat → List Nat → List (List Nat) → Option (List Nat × List (List Nat))
  | _, [], cycle, cycles => some (cycle, cycles)
  | 0, _ :: _, _, _ => none
  | fuel + 1, x :: rest, cycle, cycles =>
    match walkAux edges (x :: rest).length (x :: rest) (x :: rest) [] with
    | none => none
    | some (thiscycle, unvisited') =>
      subtourAux edges fuel unvisited'
        (if thiscycle.length < cycle.length then thiscycle else cycle)
        (cycles ++ [thiscycle])

/-- `subtour(edges)` (lines 50-68): `unvisited` starts as
`list(range(n))`, the running shortest cycle starts as `range(n+1)` (a
length-`n+1` sentinel), and the loop returns the shortest cycle and the
full list of cycles.  `n` outer iterations of fuel always suffice
(`subtourAux_terminates`). -/
def subtour (n : Nat) (edges : List (Nat × Nat)) : List Nat × List (List Nat) :=
  (subtourAux edges n (List.range n) (List.range (n + 1)) []).getD (List.range (n + 1), [])

/-- The degree-2 precondition on an edge selection: every node `v < n`
has exactly two selected out-edges.  The selections the program builds
(lines 18 and 102) list every selected edge in both orientations, so
this is the node degree. -/
def deg2 (n : Nat) (edges : List (Nat × Nat)) : Prop :=
  ∀ v, v < n → (selectFrom edges v).length = 2

instance (n : Nat) (edges : List (Nat × Nat)) : Decidable (deg2 n edges) := by
  unfold deg2; infer_instance

/-! ### Soundness of the fueled walk -/

theorem walk_spec (edges : List (Nat × Nat)) :
    ∀ fuel neighbors unvisited acc,
      neighbors ⊆ unvisited → unvisited.Nodup → unvisited.length ≤ fuel →
      ∃ cyc unv, walkAux edges fuel neighbors unvisited acc = some (cyc, unv) ∧
        (cyc ++ unv).Perm (acc ++ unvisited) ∧ unv.Nodup ∧
        acc.length ≤ cyc.length ∧ (neighbors ≠ [] → acc.length < cyc.length) := by
  intro fuel
  induction fuel with
  | zero =>
    intro neighbors unvisited acc hsub hnd hlen
    cases neighbors with
    | nil =>
      refine ⟨acc, unvisited, by simp [walkAux], List.Perm.refl _, hnd, le_refl _, ?_⟩
      intro h; exact absurd rfl h
    | cons c rest =>
      have hc : c ∈ unvisited := hsub (List.mem_cons_self c rest)
      have : unvisited = [] := List.length_eq_zero.mp (Nat.le_zero.mp hlen)
      rw [this] at hc; exact absurd hc (List.not_mem_nil c)
  | succ fuel ih =>
    intro neighbors unvisited acc hsub hnd hlen
    cases neighbors with
    | nil =>
      refine ⟨acc, unvisited, by simp [walkAux], List.Perm.refl _, hnd, le_refl _, ?_⟩
      intro h; exact absurd rfl h
    | cons c rest =>
      have hc : c ∈ unvisited := hsub (List.mem_cons_self c rest)
      have hlen' : (unvisited.erase c).length ≤ fuel := by
        rw [List.length_erase_of_mem hc]
        have : 1 ≤ unvisited.length := List.length_pos.mpr (fun h => by simp [h] at hc)
        omega
      have hsub' : ((selectFrom edges c).filter
          (fun j => decide (j ∈ unvisited.erase c))) ⊆ unvisited.erase c := by
        intro x hx
        have := List.of_mem_filter hx
        exact of_decide_eq_true this
      obtain ⟨cyc, unv, heq, hperm, hnd', hle, _⟩ :=
        ih _ (unvisited.erase c) (acc ++ [c]) hsub' (hnd.erase c) hlen'
      refine ⟨cyc, unv, by simpa [walkAux] using heq, ?_, hnd', ?_, ?_⟩
      · refine hperm.trans ?_
        rw [List.append_assoc]
        exact List.Perm.append_left acc (List.perm_cons_erase hc).symm
      · simp at hle; omega
      · intro _; simp at hle; omega

/-! ### Soundness of the fueled outer loop -/

theorem subtourAux_spec (edges : List (Nat × Nat)) :
    ∀ fuel unvisited cycle cycles, unvisited.Nodup → unvisited.length ≤ fuel →
      ∃ c cs suffix, subtourAux edges fuel unvisited cycle cycles = some (c, cs) ∧
        cs = cycles ++ suffix ∧ suffix.flatten.Perm unvisited ∧
        (∀ t ∈ suffix, t ≠ []) ∧ c = bestOf cycle suffix := by
  intro fuel
  induction fuel with
  | zero =>
    intro unvisited cycle cycles hnd hlen
    have : unvisited = [] := List.length_eq_zero.mp (Nat.le_zero.mp hlen)
    subst this
    exact ⟨cycle, cycles, [], by simp [subtourAux], by simp, List.Perm.refl _,
      by simp, rfl⟩
  | succ fuel ih =>
    intro unvisited cycle cycles hnd hlen
    cases unvisited with
    | nil =>
      exact ⟨cycle, cycles, [], by simp [subtourAux], by simp, List.Perm.refl _,
        by simp, rfl⟩
    | cons x rest =>
      obtain ⟨cyc, unv, heq, hperm, hnd', _, hlt⟩ :=
        walk_spec edges (x :: rest).length (x :: rest) (x :: rest) []
          (fun a ha => ha) hnd (le_refl _)
      have hcyclen : 0 < cyc.length := hlt (by simp)
      have hlensum : cyc.length + unv.length = (x :: rest).length := by
        have := hperm.length_eq
        simpa using this
      have hulen : unv.length ≤ fuel := by
        have : (x :: rest).length ≤ fuel + 1 := hlen
        omega
      obtain ⟨c, cs, suffix, heq2, hcs, hpermS, hne, hbest⟩ :=
        ih unv (if cyc.length < cycle.length then cyc else cycle)
          (cycles ++ [cyc]) hnd' hulen
      refine ⟨c, cs, cyc :: suffix, ?_, by simp [hcs], ?_, ?_, ?_⟩
      · simp only [subtourAux, heq]; exact heq2
      · have h1 : (cyc :: suffix).flatten = cyc ++ suffix.flatten := by simp
        rw [h1]
        refine (List.Perm.append_left cyc hpermS).trans ?_
        simpa using hperm
      · intro t ht
        rcases List.mem_cons.mp ht with h | h
        · subst h; intro h'; rw [h'] at hcyclen; simp at hcyclen
        · exact hne t h
      · simpa [bestOf] using hbest

/-- Packaged top-level description of `subtour n edges`. -/
theorem subtour_spec (n : Nat) (edges : List (Nat × Nat)) :
    ∃ cs, subtourAux edges n (List.range n) (List.range (n + 1)) [] =
        some (bestOf (List.range (n + 1)) cs, cs) ∧
      subtour n edges = (bestOf (List.range (n + 1)) cs, cs) ∧
      cs.flatten.Perm (List.range n) ∧ (∀ t ∈ cs, t ≠ []) := by
  obtain ⟨c, cs, suffix, heq, hcs, hperm, hne, hbest⟩ :=
    subtourAux_spec edges n (List.range n) (List.range (n + 1)) []
      (List.nodup_range n) (by simp)
  have hsuf : cs = suffix := by simpa using hcs
  subst hsuf
  refine ⟨cs, ?_, ?_, hperm, hne⟩
  · rw [heq, hbest]
  · rw [subtour, heq, hbest]; rfl

/-! ### The first returned component is the first-found shortest cycle -/

theorem bestOf_spec : ∀ (l : List (List Nat)) (init : List Nat),
    (bestOf init l = init ∧ ∀ t ∈ l, init.length ≤ t.length) ∨
    (∃ pre post, l = pre ++ bestOf init l :: post ∧
      (bestOf init l).length < init.length ∧
      (∀ t ∈ pre, (bestOf init l).length < t.length) ∧
      (∀ t ∈ l, (bestOf init l).length ≤ t.length)) := by
  intro l
  induction l with
  | nil => intro init; left; exact ⟨rfl, by simp⟩
  | cons t l ih =>
    intro init
    by_cases h : t.length < init.length
    · have hb : bestOf init (t :: l) = bestOf t l := by simp [bestOf, h]
      rcases ih t with ⟨heq, hall⟩ | ⟨pre, post, hsplit, hlt, hpre, hall⟩
      · right
        refine ⟨[], l, ?_, ?_, by simp, ?_⟩
        · simp [hb, heq]
        · rw [hb, heq]; exact h
        · intro s hs
          rcases List.mem_cons.mp hs with h' | h'
          · subst h'; rw [hb, heq]
          · rw [hb, heq]; exact hall s h'
      · right
        refine ⟨t :: pre, post, ?_, ?_, ?_, ?_⟩
        · rw [hb]; conv_lhs => rw [hsplit]
          rfl
        · rw [hb]; omega
        · intro s hs
          rcases List.mem_cons.mp hs with h' | h'
          · subst h'; rw [hb]; omega
          · rw [hb]; exact hpre s h'
        · intro s hs
          rcases List.mem_cons.mp hs with h' | h'
          · subst h'; rw [hb]; omega
          · rw [hb]; exact hall s h'
    · have hb : bestOf init (t :: l) = bestOf init l := by simp [bestOf, h]
      rcases ih init with ⟨heq, hall⟩ | ⟨pre, post, hsplit, hlt, hpre, hall⟩
      · left
        refine ⟨by rw [hb, heq], ?_⟩
        intro s hs
        rcases List.mem_cons.mp hs with h' | h'
        · subst h'; omega
        · exact hall s h'
      · right
        refine ⟨t :: pre, post, ?_, ?_, ?_, ?_⟩
        · rw [hb]; conv_lhs => rw [hsplit]
          rfl
        · rw [hb]; exact hlt
        · intro s hs
          rcases List.mem_cons.mp hs with h' | h'
          · subst h'; rw [hb]; omega
          · rw [hb]; exact hpre s h'
        · intro s hs
          rcases List.mem_cons.mp hs with h' | h'
          · subst h'; rw [hb]; omega
          · rw [hb]; exact hall s h'

/-! ### Claim theorems: termination and partition -/

/-- C10: the subtour detector terminates on every input edge list over
nodes `0..n-1`, including inputs violating the degree-2 precondition:
with fuel `n` for the outer loop (and `|unvisited|` for each inner
walk) the fueled embedding never runs out of fuel, because each inner
step removes the current node from `unvisited` and each frontier is
drawn only from nodes still unvisited. -/
theorem subtourAux_terminates (n : Nat) (edges : List (Nat × Nat)) :
    (subtourAux edges n (List.range n) (List.range (n + 1)) []).isSome := by
  obtain ⟨cs, heq, -, -, -⟩ := subtour_spec n edges
  rw [heq]; rfl

/-- C1: for every edge selection in which every node has degree exactly
2, the cycle list returned by `subtour` partitions `{0..n-1}`: its
total node count is `n`, every node `v < n` occurs exactly once across
all cycles, and no other node occurs.  (The partition property of the
scan does not even need the degree hypothesis.) -/
theorem subtour_partition_of_deg2 (n : Nat) (edges : List (Nat × Nat))
    (h : deg2 n edges) :
    (subtour n edges).2.flatten.length = n ∧
    (∀ v, v < n → (subtour n edges).2.flatten.count v = 1) ∧
    (∀ v ∈ (subtour n edges).2.flatten, v < n) := by
  clear h
  obtain ⟨cs, -, heq, hperm, -⟩ := subtour_spec n edges
  rw [heq]
  refine ⟨by simpa using hperm.length_eq, ?_, ?_⟩
  · intro v hv
    rw [hperm.count_eq]
    simpa using List.count_eq_one_of_mem (List.nodup_range n) (List.mem_range.mpr hv)
  · intro v hv
    have := hperm.mem_iff.mp hv
    simpa using this

/-- Witness for C1 on a concrete triangle selection (both orientations
of each edge listed, as the program's selections are). -/
theorem subtour_partition_of_deg2_witness :
    deg2 3 [(0, 1), (0, 2), (1, 0), (1, 2), (2, 0), (2, 1)] ∧
    ((subtour 3 [(0, 1), (0, 2), (1, 0), (1, 2), (2, 0), (2, 1)]).2.flatten.length = 3 ∧
     (∀ v, v < 3 →
       (subtour 3 [(0, 1), (0, 2), (1, 0), (1, 2), (2, 0), (2, 1)]).2.flatten.count v = 1) ∧
     (∀ v ∈ (subtour 3 [(0, 1), (0, 2), (1, 0), (1, 2), (2, 0), (2, 1)]).2.flatten, v < 3)) :=
  ⟨by decide, subtour_partition_of_deg2 3 _ (by decide)⟩

/-- An element of a list of lists is no longer than the flattening. -/
theorem length_le_flatten_of_mem {cs : List (List Nat)} {t : List Nat}
    (h : t ∈ cs) : t.length ≤ cs.flatten.length := by
  obtain ⟨s, u, rfl⟩ := List.append_of_mem h
  simp; omega

/-- C4: for a degree-2 edge selection over at least one node, the first
component returned by `subtour` is a cycle of the returned decomposition
of minimum length, and on ties it is the first such cycle in scan order:
the decomposition splits as `pre ++ shortest :: post` with every member
of `pre` strictly longer.  (The functions are deterministic, so the
tie-break is deterministic for a fixed input ordering.) -/
theorem subtour_first_component_min (n : Nat) (edges : List (Nat × Nat))
    (hdeg : deg2 n edges) (hn : 0 < n) :
    ∃ pre post, (subtour n edges).2 = pre ++ (subtour n edges).1 :: post ∧
      (∀ t ∈ pre, (subtour n edges).1.length < t.length) ∧
      (∀ t ∈ (subtour n edges).2, (subtour n edges).1.length ≤ t.length) := by
  clear hdeg
  obtain ⟨cs, -, heq, hperm, hne⟩ := subtour_spec n edges
  rw [heq]
  have hflat : cs.flatten.length = n := by simpa using hperm.length_eq
  have hbound : ∀ t ∈ cs, t.length ≤ n := fun t ht =>
    hflat ▸ length_le_flatten_of_mem ht
  have hcsne : cs ≠ [] := by
    intro h; rw [h] at hflat; simp at hflat; omega
  rcases bestOf_spec cs (List.range (n + 1)) with ⟨heqb, hall⟩ | ⟨pre, post, hsplit, -, hpre, hall⟩
  · obtain ⟨t, ht⟩ := List.exists_mem_of_ne_nil cs hcsne
    have h1 := hall t ht
    have h2 := hbound t ht
    simp at h1; omega
  · exact ⟨pre, post, hsplit, hpre, hall⟩

/-- Witness for C4 on the concrete triangle selection. -/
theorem subtour_first_component_min_witness :
    ∃ pre post,
      (subtour 3 [(0, 1), (0, 2), (1, 0), (1, 2), (2, 0), (2, 1)]).2 =
        pre ++ (subtour 3 [(0, 1), (0, 2), (1, 0), (1, 2), (2, 0), (2, 1)]).1 :: post ∧
      (∀ t ∈ pre,
        (subtour 3 [(0, 1), (0, 2), (1, 0), (1, 2), (2, 0), (2, 1)]).1.length < t.length) ∧
      (∀ t ∈ (subtour 3 [(0, 1), (0, 2), (1, 0), (1, 2), (2, 0), (2, 1)]).2,
        (subtour 3 [(0, 1), (0, 2), (1, 0), (1, 2), (2, 0), (2, 1)]).1.length ≤ t.length) :=
  subtour_first_component_min 3 _ (by decide) (by decide)

/-! ### The lazy-constraint callback -/

/-- `itertools.combinations(l, 2)` (line 24): all pairs of elements of
`l` taken in list order, each unordered pair once. -/
def combinations2 : List Nat → List (Nat × Nat)
  | [] => []
  | x :: xs => (xs.map (fun y => (x, y))) ++ combinations2 xs

/-- The constraint-injection decision of the callback `subtourelim`
(lines 20-24): run `subtour` on the selected edges; if the shortest
cycle has fewer than `n` nodes, inject the single lazy constraint
`sum over combinations2(tour) of vars <= len(tour) - 1`, represented
as the pair (list of variable index pairs, right-hand side); otherwise
inject nothing.  The progress reporting and plotting of lines 26-47 are
out of scope per the specification. -/
def subtourelim (n : Nat) (edges : List (Nat × Nat)) : List (List (Nat × Nat) × Nat) :=
  if (subtour n edges).1.length < n then
    [(combinations2 (subtour n edges).1, (subtour n edges).1.length - 1)]
  else []

/-- C2: on a callback invocation whose shortest detected cycle has
`k < n` nodes, exactly one lazy constraint is injected, namely the sum
of the edge variables over the unordered pairs of nodes of that cycle
bounded by `k - 1`; this holds in particular whenever the incumbent
decomposes into two or more disjoint cycles; and if the shortest cycle
has length `n` (single Hamiltonian tour) no constraint is injected. -/
theorem subtourelim_single_cut (n : Nat) (edges : List (Nat × Nat))
    (hdeg : deg2 n edges) :
    ((subtour n edges).1.length < n →
      subtourelim n edges =
        [(combinations2 (subtour n edges).1, (subtour n edges).1.length - 1)]) ∧
    ((subtour n edges).1.length = n → subtourelim n edges = []) ∧
    (2 ≤ (subtour n edges).2.length → (subtourelim n edges).length = 1) := by
  clear hdeg
  refine ⟨fun h => by simp [subtourelim, h], fun h => by simp [subtourelim, h], fun h => ?_⟩
  have hshort : (subtour n edges).1.length < n := by
    obtain ⟨cs, -, heq, hperm, hne⟩ := subtour_spec n edges
    rw [heq] at h ⊢
    simp only at h ⊢
    have hflat : cs.flatten.length = n := by simpa using hperm.length_eq
    cases cs with
    | nil => simp at h
    | cons t1 cs' =>
      cases cs' with
      | nil => simp at h
      | cons t2 rest =>
        simp at hflat
        have ht2 : 1 ≤ t2.length := List.length_pos.mpr (hne t2 (by simp))
        have hble : (bestOf (List.range (n + 1)) (t1 :: t2 :: rest)).length ≤ t1.length := by
          rcases bestOf_spec (t1 :: t2 :: rest) (List.range (n + 1)) with
            ⟨heqb, hall⟩ | ⟨-, -, -, -, -, hall⟩
          · have h1 := hall t1 (by simp)
            simp at h1; omega
          · exact hall t1 (by simp)
        omega
  simp [subtourelim, hshort]

/-- Witness for C2: a degree-2 selection over 6 nodes decomposing into
two triangles; the shortest cycle has 3 < 6 nodes and exactly one cut
is injected. -/
theorem subtourelim_single_cut_witness :
    ((subtour 6 [(0, 1), (0, 2), (1, 0), (1, 2), (2, 0), (2, 1),
        (3, 4), (3, 5), (4, 3), (4, 5), (5, 3), (5, 4)]).1.length < 6 →
      subtourelim 6 [(0, 1), (0, 2), (1, 0), (1, 2), (2, 0), (2, 1),
        (3, 4), (3, 5), (4, 3), (4, 5), (5, 3), (5, 4)] =
        [(combinations2 (subtour 6 [(0, 1), (0, 2), (1, 0), (1, 2), (2, 0), (2, 1),
            (3, 4), (3, 5), (4, 3), (4, 5), (5, 3), (5, 4)]).1,
          (subtour 6 [(0, 1), (0, 2), (1, 0), (1, 2), (2, 0), (2, 1),
            (3, 4), (3, 5), (4, 3), (4, 5), (5, 3), (5, 4)]).1.length - 1)]) ∧
    ((subtour 6 [(0, 1), (0, 2), (1, 0), (1, 2), (2, 0), (2, 1),
        (3, 4), (3, 5), (4, 3), (4, 5), (5, 3), (5, 4)]).1.length = 6 →
      subtourelim 6 [(0, 1), (0, 2), (1, 0), (1, 2), (2, 0), (2, 1),
        (3, 4), (3, 5), (4, 3), (4, 5), (5, 3), (5, 4)] = []) ∧
    (2 ≤ (subtour 6 [(0, 1), (0, 2), (1, 0), (1, 2), (2, 0), (2, 1),
        (3, 4), (3, 5), (4, 3), (4, 5), (5, 3), (5, 4)]).2.length →
      (subtourelim 6 [(0, 1), (0, 2), (1, 0), (1, 2), (2, 0), (2, 1),
        (3, 4), (3, 5), (4, 3), (4, 5), (5, 3), (5, 4)]).length = 1) :=
  subtourelim_single_cut 6 _ (by decide)

/-! ### Tour extraction after solver termination -/

/-- Lines 101-107 of the source: run `subtour` once on the final
selected-edge set, `assert len(tour) == n` (a fatal `AssertionError`,
modelled as `none`, otherwise), then close the loop with
`tour.append(tour[0])`. -/
def tourExtract (n : Nat) (edges : List (Nat × Nat)) : Option (List Nat) :=
  if (subtour n edges).1.length = n then
    some ((subtour n edges).1 ++ (subtour n edges).1.take 1)
  else none

/-- C7: the tour extractor succeeds exactly when the subtour detector
returns a single cycle covering all `n` nodes, in which case it emits
that cycle closed by its start node; in every other case it fails with
a fatal assertion error (`none`) rather than truncating or picking an
arbitrary cycle. -/
theorem tourExtract_iff_single_hamiltonian (n : Nat) (edges : List (Nat × Nat)) :
    ∀ l, tourExtract n edges = some l ↔
      ∃ c, (subtour n edges).2 = [c] ∧ c.length = n ∧ l = c ++ c.take 1 := by
  intro l
  obtain ⟨cs, -, heq, hperm, hne⟩ := subtour_spec n edges
  simp only [tourExtract, heq]
  have hflat : cs.flatten.length = n := by simpa using hperm.length_eq
  have hsingle : ∀ b, b = bestOf (List.range (n + 1)) cs → b.length = n → cs = [b] := by
    intro b hb hlenb
    rcases bestOf_spec cs (List.range (n + 1)) with ⟨heqb, -⟩ | ⟨pre, post, hsplit, -, -, -⟩
    · rw [← hb] at heqb; rw [heqb] at hlenb; simp at hlenb
    · rw [← hb] at hsplit
      have hlen2 := hflat
      rw [hsplit] at hlen2
      simp at hlen2
      have hpre : pre = [] := by
        cases pre with
        | nil => rfl
        | cons p ps =>
          exfalso
          have hp : p ∈ cs := by rw [hsplit]; simp
          have h1 : 1 ≤ p.length := List.length_pos.mpr (hne p hp)
          simp at hlen2
          omega
      have hpost : post = [] := by
        cases post with
        | nil => rfl
        | cons p ps =>
          exfalso
          have hp : p ∈ cs := by rw [hsplit]; simp
          have h1 : 1 ≤ p.length := List.length_pos.mpr (hne p hp)
          simp at hlen2
          omega
      subst hpre; subst hpost
      rw [hsplit]; rfl
  constructor
  · intro hsome
    by_cases h : (bestOf (List.range (n + 1)) cs).length = n
    · refine ⟨bestOf (List.range (n + 1)) cs, hsingle _ rfl h, h, ?_⟩
      rw [if_pos h] at hsome
      exact (Option.some.inj hsome).symm
    · rw [if_neg h] at hsome; exact absurd hsome (by simp)
  · rintro ⟨c, hcs, hclen, hl⟩
    have hb : bestOf (List.range (n + 1)) cs = c := by
      rw [hcs]
      simp [bestOf, hclen]
    rw [hb, if_pos hclen, hl]

/-- Witness for C7: the triangle selection over 3 nodes extracts the
closed tour `[0, 1, 2, 0]`. -/
theorem tourExtract_iff_single_hamiltonian_witness :
    ∃ c, (subtour 3 [(0, 1), (0, 2), (1, 0), (1, 2), (2, 0), (2, 1)]).2 = [c] ∧
      c.length = 3 ∧ [0, 1, 2, 0] = c ++ c.take 1 :=
  (tourExtract_iff_single_hamiltonian 3
    [(0, 1), (0, 2), (1, 0), (1, 2), (2, 0), (2, 1)] [0, 1, 2, 0]).mp (by decide)

/-! ### Soundness of the generated cut

An edge selection is represented by the list of its edges, each edge
once; a closed walk `t` selects its cyclic adjacency pairs.  The cut of
line 24 sums one binary variable per unordered pair of nodes of the
shortest cycle, so its left-hand side evaluated at a selection is the
number of selected edges with both endpoints in that cycle. -/

/-- The ordered adjacency pairs of a walk that closes back to `first`:
`adjPairs first [a, b, c] = [(a, b), (b, c), (c, first)]`. -/
def adjPairs (first : Nat) : List Nat → List (Nat × Nat)
  | [] => []
  | [a] => [(a, first)]
  | a :: b :: rest => (a, b) :: adjPairs first (b :: rest)

/-- The edges of a list of nodes read as a closed cycle. -/
def cyclePairs : List Nat → List (Nat × Nat)
  | [] => []
  | x :: xs => adjPairs x (x :: xs)

/-- The left-hand side of the cut `sum of vars over unordered pairs
within C <= |C| - 1`, evaluated at the selection `sel` (one entry per
selected edge): the number of selected edges with both endpoints in
`C`. -/
def cutVal (C : List Nat) (sel : List (Nat × Nat)) : Nat :=
  sel.countP (fun p => decide (p.1 ∈ C) && decide (p.2 ∈ C))

theorem adjPairs_length (f : Nat) : ∀ l : List Nat, (adjPairs f l).length = l.length
  | [] => rfl
  | [_] => rfl
  | _ :: b :: rest => by
    rw [adjPairs]
    simp only [List.length_cons]
    rw [adjPairs_length f (b :: rest)]
    simp

/-- The first components of `adjPairs f l` enumerate `l`, so counting a
predicate on first components counts it on `l`. -/
theorem countP_fst_adjPairs (C : List Nat) (f : Nat) : ∀ l : List Nat,
    (adjPairs f l).countP (fun p => decide (p.1 ∈ C)) =
      l.countP (fun a => decide (a ∈ C))
  | [] => rfl
  | [a] => by simp [adjPairs, List.countP_cons]
  | a :: b :: rest => by
    rw [adjPairs, List.countP_cons, List.countP_cons,
      countP_fst_adjPairs C f (b :: rest)]

/-- Counting a conjunction and its complementary conjunction adds up to
counting the first conjunct. -/
theorem countP_and_split {α : Type} (p q : α → Bool) : ∀ l : List α,
    l.countP (fun a => p a && q a) + l.countP (fun a => p a && !q a) = l.countP p
  | [] => rfl
  | a :: l => by
    rw [List.countP_cons, List.countP_cons, List.countP_cons]
    have := countP_and_split p q l
    cases hp : p a <;> cases hq : q a <;> simp [hp, hq] <;> omega

/-- A closed walk that starts inside `C` and contains a node outside
`C` contains a falling edge (tail in `C`, head outside). -/
theorem adjPairs_fall_of_head_mem (C : List Nat) (f : Nat) :
    ∀ (l : List Nat) (a : Nat), a ∈ C → (∃ x ∈ a :: l, x ∉ C) →
      ∃ p ∈ adjPairs f (a :: l), p.1 ∈ C ∧ p.2 ∉ C := by
  intro l
  induction l with
  | nil =>
    rintro a ha ⟨x, hx, hxC⟩
    simp at hx
    subst hx
    exact absurd ha hxC
  | cons b l ih =>
    intro a ha hex
    by_cases hb : b ∈ C
    · have hex' : ∃ x ∈ b :: l, x ∉ C := by
        obtain ⟨x, hx, hxC⟩ := hex
        rcases List.mem_cons.mp hx with rfl | hx'
        · exact absurd ha hxC
        · exact ⟨x, hx', hxC⟩
      obtain ⟨p, hp, h1, h2⟩ := ih b hb hex'
      exact ⟨p, List.mem_cons_of_mem _ hp, h1, h2⟩
    · exact ⟨(a, b), List.mem_cons_self _ _, ha, hb⟩

/-- A walk that contains a node of `C` and closes to a node outside `C`
contains a falling edge. -/
theorem adjPairs_fall_of_close_not_mem (C : List Nat) (f : Nat) (hf : f ∉ C) :
    ∀ l : List Nat, (∃ x ∈ l, x ∈ C) → ∃ p ∈ adjPairs f l, p.1 ∈ C ∧ p.2 ∉ C := by
  intro l
  induction l with
  | nil => rintro ⟨x, hx, -⟩; simp at hx
  | cons a l ih =>
    rintro ⟨x, hx, hxC⟩
    cases l with
    | nil =>
      simp at hx
      subst hx
      exact ⟨(x, f), List.mem_cons_self _ _, hxC, hf⟩
    | cons b l' =>
      by_cases ha : a ∈ C
      · by_cases hb : b ∈ C
        · obtain ⟨p, hp, h⟩ := ih ⟨b, List.mem_cons_self _ _, hb⟩
          exact ⟨p, List.mem_cons_of_mem _ hp, h⟩
        · exact ⟨(a, b), List.mem_cons_self _ _, ha, hb⟩
      · have hx' : x ∈ b :: l' := by
          rcases List.mem_cons.mp hx with rfl | h
          · exact absurd hxC ha
          · exact h
        obtain ⟨p, hp, h⟩ := ih ⟨x, hx', hxC⟩
        exact ⟨p, List.mem_cons_of_mem _ hp, h⟩

/-- Both components of every adjacency pair of a walk lie in the walk
or are the closing node. -/
theorem adjPairs_mem (f : Nat) : ∀ (l : List Nat) (p : Nat × Nat), p ∈ adjPairs f l →
    p.1 ∈ l ∧ (p.2 ∈ l ∨ p.2 = f) := by
  intro l
  induction l with
  | nil => intro p hp; simp [adjPairs] at hp
  | cons a l ih =>
    intro p hp
    cases l with
    | nil =>
      simp [adjPairs] at hp
      subst hp
      exact ⟨List.mem_cons_self _ _, Or.inr rfl⟩
    | cons b l' =>
      rcases List.mem_cons.mp hp with rfl | hp'
      · exact ⟨List.mem_cons_self _ _, Or.inl (List.mem_cons_of_mem _ (List.mem_cons_self _ _))⟩
      · obtain ⟨h1, h2⟩ := ih p hp'
        refine ⟨List.mem_cons_of_mem _ h1, ?_⟩
        rcases h2 with h | h
        · exact Or.inl (List.mem_cons_of_mem _ h)
        · exact Or.inr h

/-- A nonempty cycle, read as its own edge selection, has every edge
inside itself: the cut value is the full cycle length. -/
theorem cutVal_self (C : List Nat) (hC : C ≠ []) : cutVal C (cyclePairs C) = C.length := by
  cases C with
  | nil => exact absurd rfl hC
  | cons c0 C' =>
    rw [cyclePairs, cutVal]
    have hall : ∀ p ∈ adjPairs c0 (c0 :: C'),
        (decide (p.1 ∈ c0 :: C') && decide (p.2 ∈ c0 :: C')) = true := by
      intro p hp
      obtain ⟨h1, h2⟩ := adjPairs_mem c0 (c0 :: C') p hp
      have h2' : p.2 ∈ c0 :: C' := by
        rcases h2 with h | h
        · exact h
        · rw [h]; exact List.mem_cons_self _ _
      simp [h1, h2']
    rw [List.countP_eq_length.mpr hall, adjPairs_length]

/-- In any list that is a permutation of `range n`, the nodes of a
duplicate-free `C ⊆ range n` are counted exactly `|C|` times. -/
theorem countP_mem_of_perm_range (C t : List Nat) (n : Nat)
    (hperm : t.Perm (List.range n)) (hnd : C.Nodup) (hlt : ∀ x ∈ C, x < n) :
    t.countP (fun a => decide (a ∈ C)) = C.length := by
  rw [hperm.countP_eq, List.countP_eq_length_filter]
  have h1 : ((List.range n).filter (fun a => decide (a ∈ C))).Nodup :=
    (List.nodup_range n).filter _
  have sub1 : ((List.range n).filter (fun a => decide (a ∈ C))) ⊆ C := by
    intro x hx
    exact of_decide_eq_true (List.mem_filter.mp hx).2
  have sub2 : C ⊆ ((List.range n).filter (fun a => decide (a ∈ C))) := by
    intro x hx
    exact List.mem_filter.mpr ⟨List.mem_range.mpr (hlt x hx), decide_eq_true hx⟩
  exact Nat.le_antisymm ((h1.subperm sub1).length_le) ((hnd.subperm sub2).length_le)

/-- C3: for every cycle `C` with `3 <= |C| < n` over a subset of the
nodes, the cut generated at line 24 is satisfied by every edge
selection forming a single Hamiltonian cycle over all `n` nodes (at
most `|C| - 1` selected edges have both endpoints in `C`), and is
violated by the edge selection consisting of `C` itself as a closed
subtour (exactly `|C|` such edges). -/
theorem cut_sound_and_violated (n : Nat) (C t : List Nat)
    (hk3 : 3 ≤ C.length) (hkn : C.length < n) (hnd : C.Nodup)
    (hlt : ∀ x ∈ C, x < n) (ht : t.Perm (List.range n)) :
    cutVal C (cyclePairs t) ≤ C.length - 1 ∧
    C.length - 1 < cutVal C (cyclePairs C) := by
  constructor
  · obtain ⟨h0, t', rfl⟩ : ∃ h0 t', t = h0 :: t' := by
      cases t with
      | nil =>
        exfalso
        have := ht.length_eq
        simp at this
        omega
      | cons h0 t' => exact ⟨h0, t', rfl⟩
    have hsplit := countP_and_split (fun p : Nat × Nat => decide (p.1 ∈ C))
      (fun p : Nat × Nat => decide (p.2 ∈ C)) (cyclePairs (h0 :: t'))
    have hfst : (cyclePairs (h0 :: t')).countP (fun p => decide (p.1 ∈ C)) = C.length := by
      rw [cyclePairs, countP_fst_adjPairs]
      exact countP_mem_of_perm_range C (h0 :: t') n ht hnd hlt
    have hfall : 1 ≤ (cyclePairs (h0 :: t')).countP
        (fun p => decide (p.1 ∈ C) && !decide (p.2 ∈ C)) := by
      have hex : ∃ p ∈ cyclePairs (h0 :: t'), p.1 ∈ C ∧ p.2 ∉ C := by
        by_cases hh : h0 ∈ C
        · have hxe : ∃ x ∈ h0 :: t', x ∉ C := by
            by_contra hcon
            push_neg at hcon
            have hsub : List.range n ⊆ C := fun m hm => hcon m (ht.mem_iff.mpr hm)
            have := ((List.nodup_range n).subperm hsub).length_le
            simp at this
            omega
          rw [cyclePairs]
          exact adjPairs_fall_of_head_mem C h0 t' h0 hh hxe
        · have hCne : C ≠ [] := by intro h; rw [h] at hk3; simp at hk3
          obtain ⟨c0, hc0⟩ := List.exists_mem_of_ne_nil C hCne
          have hc0t : c0 ∈ h0 :: t' := ht.mem_iff.mpr (List.mem_range.mpr (hlt c0 hc0))
          rw [cyclePairs]
          exact adjPairs_fall_of_close_not_mem C h0 hh (h0 :: t') ⟨c0, hc0t, hc0⟩
      obtain ⟨p, hp, h1, h2⟩ := hex
      refine List.countP_pos_iff.mpr ⟨p, hp, ?_⟩
      simp [h1, h2]
    have hcut : cutVal C (cyclePairs (h0 :: t')) = (cyclePairs (h0 :: t')).countP
        (fun p => decide (p.1 ∈ C) && decide (p.2 ∈ C)) := rfl
    omega
  · rw [cutVal_self C (by intro h; rw [h] at hk3; simp at hk3)]
    omega

/-- Witness for C3: the 4-node tour `[0, 1, 2, 3]` selects 2 edges
inside `C = [0, 1, 2]`, satisfying the cut; `C` as a closed subtour
selects 3, violating it. -/
theorem cut_sound_and_violated_witness :
    cutVal [0, 1, 2] (cyclePairs [0, 1, 2, 3]) ≤ [0, 1, 2].length - 1 ∧
    [0, 1, 2].length - 1 < cutVal [0, 1, 2] (cyclePairs [0, 1, 2]) :=
  cut_sound_and_violated 4 [0, 1, 2] [0, 1, 2, 3] (by decide) (by decide) (by decide)
    (by decide) (by decide)

/-! ### The distance dictionary -/

/-- The key list of the `dist` dictionary comprehension of lines 76-77:
`(i, j) for i in range(n) for j in range(i)`, in generation order. -/
def distKeys : Nat → List (Nat × Nat)
  | 0 => []
  | n + 1 => distKeys n ++ (List.range n).map (fun j => (n, j))

/-- The stored value for key `(i, j)`:
`sum((points[i][k] - points[j][k]) ** 2 for k in range(2))` (line 76).
The source stores `math.sqrt` of this quantity; the square root is a
fixed function of this symmetric value and plays no role in the key
structure or the symmetry claims, so the exact squared distance is
modelled. -/
def sqDist (points : List (Int × Int)) (i j : Nat) : Int :=
  ((points.getD i (0, 0)).1 - (points.getD j (0, 0)).1) ^ 2 +
    ((points.getD i (0, 0)).2 - (points.getD j (0, 0)).2) ^ 2

/-- Lookup in the `dist` dictionary: the key `(i, j)` is present exactly
when the comprehension generated it, i.e. when `j < i < n`; any other
key raises `KeyError` (modelled as `none`). -/
def distLookup (points : List (Int × Int)) (n i j : Nat) : Option Int :=
  if j < i ∧ i < n then some (sqDist points i j) else none

/-- A member of a duplicate-free list is counted exactly once. -/
theorem count_one_of_nodup_mem {α : Type} [BEq α] [LawfulBEq α] {l : List α} {a : α}
    (hnd : l.Nodup) (ha : a ∈ l) : l.count a = 1 := by
  induction l with
  | nil => simp at ha
  | cons b l ih =>
    rw [List.count_cons]
    rcases List.mem_cons.mp ha with rfl | h
    · have hb : l.count a = 0 :=
        List.count_eq_zero.mpr (fun hmem => (List.nodup_cons.mp hnd).1 hmem)
      simp [hb]
    · have hne : ¬ (b == a) = true := by
        intro hba
        have hba' : b = a := eq_of_beq hba
        subst hba'
        exact (List.nodup_cons.mp hnd).1 h
      rw [ih (List.nodup_cons.mp hnd).2 h]
      simp [hne]

theorem mem_distKeys (n : Nat) : ∀ a b : Nat, (a, b) ∈ distKeys n ↔ b < a ∧ a < n := by
  induction n with
  | zero => intro a b; simp [distKeys]
  | succ n ih =>
    intro a b
    simp only [distKeys, List.mem_append, List.mem_map, List.mem_range, ih,
      Prod.mk.injEq]
    constructor
    · rintro (h | ⟨j, hj, rfl, rfl⟩)
      · omega
      · omega
    · intro h
      by_cases ha : a = n
      · subst ha; exact Or.inr ⟨b, by omega, rfl, rfl⟩
      · exact Or.inl ⟨h.1, by omega⟩

theorem nodup_distKeys (n : Nat) : (distKeys n).Nodup := by
  induction n with
  | zero => simp [distKeys]
  | succ n ih =>
    rw [distKeys]
    refine List.Nodup.append ih ?_ ?_
    · refine List.Nodup.map ?_ (List.nodup_range n)
      intro x y h
      simpa using h
    · intro p hp1 hp2
      obtain ⟨a, b⟩ := p
      have h1 := (mem_distKeys n a b).mp hp1
      obtain ⟨j, -, hj⟩ := List.mem_map.mp hp2
      simp at hj
      omega

/-- C5 counterexample: the distance dictionary does not expose a
symmetric lookup.  With two points `(0,0)` and `(3,4)`, the generated
key `(1, 0)` holds the (squared) distance, while the mirrored lookup
`(0, 1)` is a `KeyError`. -/
theorem distLookup_not_symmetric :
    distLookup [(0, 0), (3, 4)] 2 1 0 = some 25 ∧
    distLookup [(0, 0), (3, 4)] 2 0 1 = none := by
  constructor
  · rw [distLookup, if_pos (by omega)]
    rfl
  · rw [distLookup, if_neg (by omega)]

/-- C5 (amended): the dictionary stores each unordered pair `{i, j}`
with `i ≠ j` exactly once, under the orientation `(i, j)` with
`j < i`; lookup succeeds only for that orientation (the mirrored order
and the diagonal are absent), and the stored computation itself is
symmetric in the two indices. -/
theorem distLookup_oriented_storage (points : List (Int × Int)) (n i j : Nat)
    (hi : i < n) (hj : j < i) :
    distLookup points n i j = some (sqDist points i j) ∧
    distLookup points n j i = none ∧
    sqDist points i j = sqDist points j i ∧
    distLookup points n i i = none ∧
    (distKeys n).count (i, j) = 1 := by
  refine ⟨?_, ?_, ?_, ?_, ?_⟩
  · rw [distLookup, if_pos ⟨hj, hi⟩]
  · rw [distLookup, if_neg (by omega)]
  · rw [sqDist, sqDist]; ring
  · rw [distLookup, if_neg (by omega)]
  · exact count_one_of_nodup_mem (nodup_distKeys n) ((mem_distKeys n i j).mpr ⟨hj, hi⟩)

/-- Witness for the amended C5 at `points = [(0,0), (3,4)]`, `n = 2`,
`i = 1`, `j = 0`. -/
theorem distLookup_oriented_storage_witness :
    distLookup [(0, 0), (3, 4)] 2 1 0 = some (sqDist [(0, 0), (3, 4)] 1 0) ∧
    distLookup [(0, 0), (3, 4)] 2 0 1 = none ∧
    sqDist [(0, 0), (3, 4)] 1 0 = sqDist [(0, 0), (3, 4)] 0 1 ∧
    distLookup [(0, 0), (3, 4)] 2 1 1 = none ∧
    (distKeys 2).count (1, 0) = 1 :=
  distLookup_oriented_storage [(0, 0), (3, 4)] 2 1 0 (by decide) (by decide)

/-! ### Variable creation, mirroring, objective and degree constraints -/

/-- The key list of the `vars` tupledict after the mirroring loop of
lines 90-91: the original keys `(i, j)`, `j < i < n`, from `addVars`
(line 87), followed by the mirrored keys `(j, i)` in insertion order. -/
def allKeys (n : Nat) : List (Nat × Nat) :=
  distKeys n ++ (distKeys n).map (fun p => (p.2, p.1))

/-- Resolution of `vars[i, j]` after mirroring: both orientations of a
pair resolve to the identity of the single underlying variable, named
by its original creation key (the `(max, min)` orientation); absent
keys are `none`. -/
def varKey (n i j : Nat) : Option (Nat × Nat) :=
  if j < i ∧ i < n then some (i, j)
  else if i < j ∧ j < n then some (j, i)
  else none

/-- The canonical (creation-key) orientation of a pair. -/
def canon (p : Nat × Nat) : Nat × Nat := if p.2 < p.1 then p else (p.2, p.1)

/-- The term list of the degree constraint `vars.sum(v, '*') == 2` of
line 94: all tupledict keys whose first component is `v`. -/
def degreeTerms (n v : Nat) : List (Nat × Nat) :=
  (allKeys n).filter (fun p => p.1 == v)

/-- The model built by lines 76-94: objective terms (one per `dist`
key, from `addVars(dist.keys(), obj=dist)`) and one degree-2
constraint per node. -/
def buildModel (n : Nat) : List (Nat × Nat) × List (List (Nat × Nat) × Nat) :=
  (distKeys n, (List.range n).map (fun v => (degreeTerms n v, 2)))

theorem mem_allKeys (n a b : Nat) :
    (a, b) ∈ allKeys n ↔ (b < a ∧ a < n) ∨ (a < b ∧ b < n) := by
  rw [allKeys, List.mem_append, mem_distKeys]
  constructor
  · rintro (h | h)
    · exact Or.inl h
    · obtain ⟨⟨x, y⟩, hp, he⟩ := List.mem_map.mp h
      simp at he
      have := (mem_distKeys n x y).mp hp
      omega
  · rintro (h | h)
    · exact Or.inl h
    · exact Or.inr (List.mem_map.mpr ⟨(b, a), (mem_distKeys n b a).mpr ⟨h.1, h.2⟩, rfl⟩)

theorem mem_allKeys_facts (n : Nat) {p : Nat × Nat} (hp : p ∈ allKeys n) :
    p.1 ≠ p.2 ∧ p.1 < n ∧ p.2 < n := by
  obtain ⟨a, b⟩ := p
  have := (mem_allKeys n a b).mp hp
  simp only
  omega

theorem nodup_allKeys (n : Nat) : (allKeys n).Nodup := by
  rw [allKeys]
  refine List.Nodup.append (nodup_distKeys n) ?_ ?_
  · refine List.Nodup.map ?_ (nodup_distKeys n)
    intro p q h
    obtain ⟨x, y⟩ := p
    obtain ⟨u, v⟩ := q
    simp at h ⊢
    exact ⟨h.2, h.1⟩
  · intro p hp1 hp2
    obtain ⟨a, b⟩ := p
    have h1 := (mem_distKeys n a b).mp hp1
    obtain ⟨⟨x, y⟩, hq, he⟩ := List.mem_map.mp hp2
    have h2 := (mem_distKeys n x y).mp hq
    simp at he
    omega

theorem canon_inj_fixed_fst {v w w' : Nat} (hw : w ≠ v) (hw' : w' ≠ v)
    (h : canon (v, w) = canon (v, w')) : w = w' := by
  rw [canon, canon] at h
  simp only at h
  split_ifs at h <;> simp only [Prod.mk.injEq] at h <;> omega

theorem canon_comm {i j : Nat} (h : i ≠ j) : canon (i, j) = canon (j, i) := by
  rw [canon, canon]
  simp only
  split_ifs <;> simp <;> omega

/-- Each variable incident to node `v` occurs exactly once among the
terms of `v`'s degree constraint. -/
theorem degreeTerms_count (n v u : Nat) (hv : v < n) (hu : u < n) (hvu : u ≠ v) :
    ((degreeTerms n v).map canon).count (canon (v, u)) = 1 := by
  have hmem : (v, u) ∈ degreeTerms n v := by
    rw [degreeTerms]
    exact List.mem_filter.mpr ⟨(mem_allKeys n v u).mpr (by omega), by simp⟩
  have hnodup : ((degreeTerms n v).map canon).Nodup := by
    refine List.Nodup.map_on ?_ ((nodup_allKeys n).filter _)
    intro x hx y hy hxy
    obtain ⟨hx1, hx2⟩ := List.mem_filter.mp hx
    obtain ⟨hy1, hy2⟩ := List.mem_filter.mp hy
    have hxfacts := mem_allKeys_facts n hx1
    have hyfacts := mem_allKeys_facts n hy1
    obtain ⟨x1, x2⟩ := x
    obtain ⟨y1, y2⟩ := y
    simp at hx2 hy2
    subst hx2
    subst hy2
    simp only at hxfacts hyfacts
    have := @canon_inj_fixed_fst _ x2 y2 (by omega) (by omega) hxy
    simp [this]
  exact count_one_of_nodup_mem hnodup (List.mem_map_of_mem canon hmem)

/-- C6: after formulation, the two lookup orders of an unordered pair
resolve to the same single variable; that variable's creation key
occurs exactly once in the objective key list, and exactly once among
the terms of each of its two endpoints' degree-2 constraints. -/
theorem varKey_mirror_no_double_count (n i j : Nat)
    (hi : i < n) (hj : j < n) (hij : i ≠ j) :
    varKey n i j = varKey n j i ∧ (varKey n i j).isSome ∧
    (distKeys n).count (canon (i, j)) = 1 ∧
    ((degreeTerms n i).map canon).count (canon (i, j)) = 1 ∧
    ((degreeTerms n j).map canon).count (canon (i, j)) = 1 := by
  refine ⟨?_, ?_, ?_, ?_, ?_⟩
  · rcases lt_or_gt_of_ne hij with h | h
    · rw [varKey, if_neg (by omega), if_pos ⟨h, hj⟩, varKey, if_pos ⟨h, hj⟩]
    · rw [varKey, if_pos ⟨h, hi⟩, varKey, if_neg (by omega), if_pos ⟨h, hi⟩]
  · rcases lt_or_gt_of_ne hij with h | h
    · rw [varKey, if_neg (by omega), if_pos ⟨h, hj⟩]; rfl
    · rw [varKey, if_pos ⟨h, hi⟩]; rfl
  · have hmem : canon (i, j) ∈ distKeys n := by
      rw [canon]
      simp only
      split_ifs with h
      · exact (mem_distKeys n i j).mpr ⟨h, hi⟩
      · exact (mem_distKeys n j i).mpr ⟨by omega, hj⟩
    exact count_one_of_nodup_mem (nodup_distKeys n) hmem
  · exact degreeTerms_count n i j hi hj (Ne.symm hij)
  · rw [canon_comm hij]
    exact degreeTerms_count n j i hj hi hij

/-- Witness for C6 at `n = 3`, `i = 0`, `j = 1`. -/
theorem varKey_mirror_no_double_count_witness :
    varKey 3 0 1 = varKey 3 1 0 ∧ (varKey 3 0 1).isSome ∧
    (distKeys 3).count (canon (0, 1)) = 1 ∧
    ((degreeTerms 3 0).map canon).count (canon (0, 1)) = 1 ∧
    ((degreeTerms 3 1).map canon).count (canon (0, 1)) = 1 :=
  varKey_mirror_no_double_count 3 0 1 (by decide) (by decide) (by decide)

/-! ### Absence of input validation (builder and detector) -/

/-- Modelled semantics of the external Streamlit widget
`st.slider(label, 5, 200, 5)` (line 70): the returned count is the
user's choice clamped to the widget's `[lo, hi]` range. -/
def slider (lo hi dflt v : Nat) : Nat := max lo (min hi v)

/-- C9 counterexample: for `n = 1 < 2` the formulation builder does not
fail; it constructs a degenerate model with no variables and the single
unsatisfiable degree constraint `0 == 2` for node `0`. -/
theorem buildModel_constructs_for_small_n :
    1 < 2 ∧ buildModel 1 = ([], [([], 2)]) := by
  exact ⟨by omega, by rfl⟩

/-- C9 (amended): the builder itself performs no `n < 2` validation and
constructs a (degenerate, variable-free) model for such `n`; in the
application `n < 2` is unreachable because the input slider clamps the
count to `[5, 200]`. -/
theorem slider_bounds_and_degenerate_model :
    (∀ v, ¬ slider 5 200 5 v < 2) ∧
    (∀ n, n < 2 → (buildModel n).1 = [] ∧ (buildModel n).2.length = n) := by
  constructor
  · intro v
    have := Nat.le_max_left 5 (min 200 v)
    rw [slider]
    omega
  · intro n hn
    cases n with
    | zero => exact ⟨rfl, rfl⟩
    | succ m =>
      have hm : m = 0 := by omega
      subst hm
      exact ⟨rfl, rfl⟩

/-- Witness for the amended C9. -/
theorem slider_bounds_and_degenerate_model_witness :
    ¬ slider 5 200 5 0 < 2 ∧ (buildModel 1).1 = [] ∧ (buildModel 1).2.length = 1 :=
  ⟨slider_bounds_and_degenerate_model.1 0,
   (slider_bounds_and_degenerate_model.2 1 (by omega)).1,
   (slider_bounds_and_degenerate_model.2 1 (by omega)).2⟩

/-- A returned node list is a genuine cycle of the selection when it is
nonempty and each cyclically consecutive pair is a selected edge. -/
def isCycleOf (edges : List (Nat × Nat)) (c : List Nat) : Prop :=
  c ≠ [] ∧ ∀ p ∈ cyclePairs c, p ∈ edges

instance (edges : List (Nat × Nat)) (c : List Nat) : Decidable (isCycleOf edges c) := by
  unfold isCycleOf; infer_instance

/-- C8 counterexample: on the empty selection over 3 nodes — every node
has degree 0, violating the degree-2 precondition — the detector does
not fail: it returns the decomposition `[[0], [1], [2]]`, whose members
are not cycles of the selection. -/
theorem subtour_no_failfast_cex :
    ¬ deg2 3 [] ∧ subtour 3 [] = ([0], [[0], [1], [2]]) ∧
    ¬ (∀ c ∈ (subtour 3 []).2, isCycleOf [] c) := by
  refine ⟨by decide, by decide, by decide⟩

/-- C8 (amended): the subtour detector performs no validation: on any
edge selection violating the degree-2 precondition it still returns
normally (the fueled loops complete; no error of any kind), and its
output still partitions the node indices — but, per the counterexample,
the returned lists need not be genuine cycles of the selection. -/
theorem subtour_total_without_deg2 (n : Nat) (edges : List (Nat × Nat))
    (h : ¬ deg2 n edges) :
    (subtourAux edges n (List.range n) (List.range (n + 1)) []).isSome ∧
    (subtour n edges).2.flatten.Perm (List.range n) := by
  clear h
  obtain ⟨cs, heq1, heq, hperm, -⟩ := subtour_spec n edges
  constructor
  · rw [heq1]; rfl
  · rw [heq]; exact hperm

/-- Witness for the amended C8 on the empty selection over 3 nodes. -/
theorem subtour_total_without_deg2_witness :
    ¬ deg2 3 [] ∧
    ((subtourAux [] 3 (List.range 3) (List.range 4) []).isSome ∧
     (subtour 3 []).2.flatten.Perm (List.range 3)) :=
  ⟨by decide, subtour_total_without_deg2 3 [] (by decide)⟩

end TSPApp
